import Mathlib

/-
Verification of the GARCH conditional Monte-Carlo core of PyFENG
(src/pyfeng/garch.py, class GarchCondMC).

The embedding works over the real numbers.  The base class sv_abc is not part
of the sources; its contributions are abstracted as explicit parameters:
  * the model fields mr, theta, vov, rho, sigma, dt, n_path become a `Model`
    structure;
  * the Brownian-increment helper `_bm_incr(tobs, cum=False)` becomes a
    function `gen : List ℝ → ℕ → ℕ → ℝ` from the requested time sequence to
    the matrix of drawn standard-normal increments (row, column);
  * the time-grid helper `self.tobs(texp)` becomes a function
    `tobs_fn : ℝ → List ℝ`.
Matrices are lists of rows; each row is a list with one entry per path.
`scipy.integrate.simps(y, dx=1, axis=0)` is embedded column-wise by `simps`
below, following scipy's composite-Simpson algorithm (default even behaviour
averaging the first/last trapezoid corrections when the number of points is
even).
-/

namespace Garch

/-- Model parameters owned by the enclosing model instance
(sv_abc scalar fields used by garch.py). -/
structure Model where
  mr : ℝ
  theta : ℝ
  vov : ℝ
  rho : ℝ
  sigma : ℝ
  dt : ℝ
  n_path : ℕ

/-- One Milstein step of the log-variance recursion of `vol_paths`:
w + (mr * theta * exp(-w) - mr - vov^2/2) * dt + vov * sqrt(dt) * z. -/
noncomputable def w_step (m : Model) (wprev z : ℝ) : ℝ :=
  wprev + (m.mr * m.theta * Real.exp (-wprev) - m.mr - m.vov ^ 2 / 2) * m.dt
    + m.vov * Real.sqrt m.dt * z

/-- The simulated log-variance path of one column: row 0 is 2*log(sigma),
row i+1 advances row i with increment Z i (the row i of rn_norm). -/
noncomputable def w_t (m : Model) (Z : ℕ → ℝ) : ℕ → ℝ
  | 0 => 2 * Real.log m.sigma
  | i + 1 => w_step m (w_t m Z i) (Z i)

/-- The synthetic index sequence np.arange(1, n_dt + 0.1) = [1, ..., n_dt]
on which `vol_paths` requests the increments. -/
noncomputable def arange1 (n : ℕ) : List ℝ :=
  (List.range n).map fun i => (i : ℝ) + 1

/-- The column of increments for path j, as drawn by
`_bm_incr(tobs=np.arange(1, n_dt + 0.1), cum=False)`. -/
noncomputable def path_Z (gen : List ℝ → ℕ → ℕ → ℝ) (n_dt j : ℕ) : ℕ → ℝ :=
  fun k => gen (arange1 n_dt) k j

/-- GarchCondMC.vol_paths: the (n_dt+1, n_path) variance matrix exp(w_t),
rows indexed by time step, columns by path. -/
noncomputable def vol_paths (m : Model) (tobs : List ℝ)
    (gen : List ℝ → ℕ → ℕ → ℝ) : List (List ℝ) :=
  (List.range (tobs.length + 1)).map fun i =>
    (List.range m.n_path).map fun j =>
      Real.exp (w_t m (path_Z gen tobs.length j) i)

/-- Entry (i, j) of a matrix stored as a list of rows (0 outside the range). -/
def entry (mat : List (List ℝ)) (i j : ℕ) : ℝ :=
  (mat.getD i []).getD j 0

/-- The inner sum of scipy's composite Simpson rule with dx = 1: Simpson
slices of width 2 starting at `start`, `count` of them, each contributing
(y_k + 4*y_(k+1) + y_(k+2))/3. -/
noncomputable def basic_simps (f : ℕ → ℝ) (start count : ℕ) : ℝ :=
  ∑ k ∈ Finset.range count,
    (f (start + 2 * k) + 4 * f (start + 2 * k + 1) + f (start + 2 * k + 2)) / 3

/-- scipy.integrate.simps with dx = 1 applied to one column with `npts`
points: composite Simpson when the interval count is even, the average of
the first/last trapezoid-corrected Simpson sums otherwise (scipy default). -/
noncomputable def simps (f : ℕ → ℝ) (npts : ℕ) : ℝ :=
  if npts % 2 = 1 then
    basic_simps f 0 ((npts - 1) / 2)
  else
    ((basic_simps f 0 ((npts - 2) / 2) + (f (npts - 1) + f (npts - 2)) / 2)
      + (basic_simps f 1 ((npts - 2) / 2) + (f 1 + f 0) / 2)) / 2

/-- The variance path of column Z: var_paths row i. -/
noncomputable def var_path (m : Model) (Z : ℕ → ℝ) (i : ℕ) : ℝ :=
  Real.exp (w_t m Z i)

/-- sigma_paths = sqrt(var_paths), one column. -/
noncomputable def sigma_path (m : Model) (Z : ℕ → ℝ) (i : ℕ) : ℝ :=
  Real.sqrt (var_path m Z i)

/-- int_sigma = scint.simps(sigma_paths, dx=1, axis=0) * texp/n_dt. -/
noncomputable def int_sigma (m : Model) (Z : ℕ → ℝ) (texp : ℝ) (n_dt : ℕ) : ℝ :=
  simps (fun i => sigma_path m Z i) (n_dt + 1) * texp / n_dt

/-- int_var = scint.simps(var_paths, dx=1, axis=0) * texp/n_dt. -/
noncomputable def int_var (m : Model) (Z : ℕ → ℝ) (texp : ℝ) (n_dt : ℕ) : ℝ :=
  simps (fun i => var_path m Z i) (n_dt + 1) * texp / n_dt

/-- int_sigma_inv = scint.simps(1/sigma_paths, dx=1, axis=0) * texp/n_dt. -/
noncomputable def int_sigma_inv (m : Model) (Z : ℕ → ℝ) (texp : ℝ) (n_dt : ℕ) : ℝ :=
  simps (fun i => 1 / sigma_path m Z i) (n_dt + 1) * texp / n_dt

/-- fwd_cond of one path: exp(rho * (2*(sigma_final - sigma)/vov
- mr*theta*int_sigma_inv/vov + (mr/vov + vov/4)*int_sigma
- rho*int_var/2)), where sigma_final = sigma_paths[-1]. -/
noncomputable def fwd_cond_path (m : Model) (Z : ℕ → ℝ) (texp : ℝ) (n_dt : ℕ) : ℝ :=
  Real.exp (m.rho *
    (2 * (sigma_path m Z n_dt - m.sigma) / m.vov
      - m.mr * m.theta * int_sigma_inv m Z texp n_dt / m.vov
      + (m.mr / m.vov + m.vov / 4) * int_sigma m Z texp n_dt
      - m.rho * int_var m Z texp n_dt / 2))

/-- sigma_cond of one path: rhoc * sqrt(int_var) with rhoc = sqrt(1 - rho^2). -/
noncomputable def sigma_cond_path (m : Model) (Z : ℕ → ℝ) (texp : ℝ) (n_dt : ℕ) : ℝ :=
  Real.sqrt (1 - m.rho ^ 2) * Real.sqrt (int_var m Z texp n_dt)

/-- GarchCondMC.cond_spot_sigma: obtains the grid tobs_fn texp, simulates the
variance paths and returns the per-path arrays (fwd_cond, sigma_cond).
All matrix operations of the source act column-wise, so the result is
assembled path by path from the columns of the increment matrix. -/
noncomputable def cond_spot_sigma (m : Model) (tobs_fn : ℝ → List ℝ)
    (gen : List ℝ → ℕ → ℕ → ℝ) (texp : ℝ) : List ℝ × List ℝ :=
  ((List.range m.n_path).map fun j =>
      fwd_cond_path m (path_Z gen (tobs_fn texp).length j) texp (tobs_fn texp).length,
   (List.range m.n_path).map fun j =>
      sigma_cond_path m (path_Z gen (tobs_fn texp).length j) texp (tobs_fn texp).length)

/-- A concrete parameter set used to instantiate the theorems:
mr = 0, theta = 0, vov = 1, rho = 0, sigma = 1, dt = 1, n_path = 1. -/
noncomputable def mW : Model := ⟨0, 0, 1, 0, 1, 1, 1⟩

/-- A concrete increment generator drawing 0 for every step and path. -/
noncomputable def genW : List ℝ → ℕ → ℕ → ℝ := fun _ _ _ => 0

/-- A concrete one-point observation grid. -/
noncomputable def tobsW : List ℝ := [1]

/-- A second one-point grid with a different time value. -/
noncomputable def tobsW2 : List ℝ := [2]

/-- A concrete grid helper returning tobsW for every expiry. -/
noncomputable def fnW : ℝ → List ℝ := fun _ => tobsW

/-- A second grid helper returning tobsW2 for every expiry. -/
noncomputable def fnW2 : ℝ → List ℝ := fun _ => tobsW2

/-! Helper lemmas about the list-of-rows representation. -/

lemma getD_map_range {α : Type} (d : α) (f : ℕ → α) {n j : ℕ} (hj : j < n) :
    ((List.range n).map f).getD j d = f j := by
  rw [List.getD_eq_getElem?_getD, List.getElem?_map, List.getElem?_range hj]
  rfl

lemma vol_paths_length (m : Model) (tobs : List ℝ) (gen : List ℝ → ℕ → ℕ → ℝ) :
    (vol_paths m tobs gen).length = tobs.length + 1 := by
  simp [vol_paths]

lemma vol_paths_row_length (m : Model) (tobs : List ℝ) (gen : List ℝ → ℕ → ℕ → ℝ)
    {i : ℕ} (hi : i < tobs.length + 1) :
    ((vol_paths m tobs gen).getD i []).length = m.n_path := by
  rw [vol_paths, getD_map_range _ _ hi]
  simp

lemma entry_vol_paths (m : Model) (tobs : List ℝ) (gen : List ℝ → ℕ → ℕ → ℝ)
    {i j : ℕ} (hi : i ≤ tobs.length) (hj : j < m.n_path) :
    entry (vol_paths m tobs gen) i j = var_path m (path_Z gen tobs.length j) i := by
  rw [entry, vol_paths, getD_map_range _ _ (Nat.lt_succ_of_le hi),
    getD_map_range _ _ hj, var_path]

lemma basic_simps_congr (f g : ℕ → ℝ) (start count : ℕ)
    (h : ∀ k < count, f (start + 2 * k) = g (start + 2 * k)
      ∧ f (start + 2 * k + 1) = g (start + 2 * k + 1)
      ∧ f (start + 2 * k + 2) = g (start + 2 * k + 2)) :
    basic_simps f start count = basic_simps g start count := by
  unfold basic_simps
  refine Finset.sum_congr rfl fun k hk => ?_
  obtain ⟨h1, h2, h3⟩ := h k (Finset.mem_range.mp hk)
  rw [h1, h2, h3]

lemma simps_congr (f g : ℕ → ℝ) (npts : ℕ) (h0 : 0 < npts)
    (h : ∀ i < npts, f i = g i) : simps f npts = simps g npts := by
  unfold simps
  split_ifs with hp
  · refine basic_simps_congr f g 0 ((npts - 1) / 2) fun k hk => ?_
    exact ⟨h _ (by omega), h _ (by omega), h _ (by omega)⟩
  · have hp0 : npts % 2 = 0 := by omega
    have b1 : basic_simps f 0 ((npts - 2) / 2) = basic_simps g 0 ((npts - 2) / 2) :=
      basic_simps_congr f g 0 ((npts - 2) / 2) fun k hk =>
        ⟨h _ (by omega), h _ (by omega), h _ (by omega)⟩
    have b2 : basic_simps f 1 ((npts - 2) / 2) = basic_simps g 1 ((npts - 2) / 2) :=
      basic_simps_congr f g 1 ((npts - 2) / 2) fun k hk =>
        ⟨h _ (by omega), h _ (by omega), h _ (by omega)⟩
    rw [b1, b2, h (npts - 1) (by omega), h (npts - 2) (by omega),
      h 1 (by omega), h 0 (by omega)]

lemma cond_fst_getD (m : Model) (tobs_fn : ℝ → List ℝ) (gen : List ℝ → ℕ → ℕ → ℝ)
    (texp : ℝ) {j : ℕ} (hj : j < m.n_path) :
    (cond_spot_sigma m tobs_fn gen texp).1.getD j 0
      = fwd_cond_path m (path_Z gen (tobs_fn texp).length j) texp (tobs_fn texp).length := by
  show ((List.range m.n_path).map fun j =>
      fwd_cond_path m (path_Z gen (tobs_fn texp).length j) texp (tobs_fn texp).length).getD j 0 = _
  exact getD_map_range _ _ hj

lemma cond_snd_getD (m : Model) (tobs_fn : ℝ → List ℝ) (gen : List ℝ → ℕ → ℕ → ℝ)
    (texp : ℝ) {j : ℕ} (hj : j < m.n_path) :
    (cond_spot_sigma m tobs_fn gen texp).2.getD j 0
      = sigma_cond_path m (path_Z gen (tobs_fn texp).length j) texp (tobs_fn texp).length := by
  show ((List.range m.n_path).map fun j =>
      sigma_cond_path m (path_Z gen (tobs_fn texp).length j) texp (tobs_fn texp).length).getD j 0 = _
  exact getD_map_range _ _ hj

lemma cond_snd_length (m : Model) (tobs_fn : ℝ → List ℝ) (gen : List ℝ → ℕ → ℕ → ℝ)
    (texp : ℝ) : (cond_spot_sigma m tobs_fn gen texp).2.length = m.n_path := by
  show ((List.range m.n_path).map fun j =>
      sigma_cond_path m (path_Z gen (tobs_fn texp).length j) texp (tobs_fn texp).length).length = _
  simp

/-- C2: vol_paths returns the (n_dt+1, n_path) matrix exp(w): row 0 equals
sigma^2 on every path, and each row i = 1..n_dt follows the log-variance
recursion w_i = w_(i-1) + (mr*theta*exp(-w_(i-1)) - mr - vov^2/2)*dt
+ vov*sqrt(dt)*Z_i with Z_i the i-th drawn increment row and dt the single
fixed step size. -/
theorem claim_C2 (m : Model) (tobs : List ℝ) (gen : List ℝ → ℕ → ℕ → ℝ)
    (i j : ℕ) (hne : tobs ≠ []) (hσ : 0 < m.sigma)
    (h1 : 1 ≤ i) (hi : i ≤ tobs.length) (hj : j < m.n_path) :
    (vol_paths m tobs gen).length = tobs.length + 1
    ∧ ((vol_paths m tobs gen).getD i []).length = m.n_path
    ∧ entry (vol_paths m tobs gen) 0 j = m.sigma ^ 2
    ∧ Real.log (entry (vol_paths m tobs gen) i j)
        = Real.log (entry (vol_paths m tobs gen) (i - 1) j)
          + (m.mr * m.theta * Real.exp (-Real.log (entry (vol_paths m tobs gen) (i - 1) j))
              - m.mr - m.vov ^ 2 / 2) * m.dt
          + m.vov * Real.sqrt m.dt * gen (arange1 tobs.length) (i - 1) j := by
  obtain ⟨k, rfl⟩ : ∃ k, i = k + 1 := ⟨i - 1, by omega⟩
  refine ⟨vol_paths_length m tobs gen, vol_paths_row_length m tobs gen (by omega), ?_, ?_⟩
  · rw [entry_vol_paths m tobs gen (Nat.zero_le _) hj, var_path, w_t, two_mul,
      Real.exp_add, Real.exp_log hσ, pow_two]
  · rw [entry_vol_paths m tobs gen hi hj, entry_vol_paths m tobs gen (by omega) hj]
    simp only [Nat.add_sub_cancel]
    rw [var_path, var_path, Real.log_exp, Real.log_exp]
    rfl

/-- C2 witness at the concrete instance mW, tobsW, genW, i = 1, j = 0. -/
theorem claim_C2_w :
    tobsW ≠ [] ∧ 0 < mW.sigma ∧ 1 ≤ tobsW.length ∧ 0 < mW.n_path
    ∧ ((vol_paths mW tobsW genW).length = tobsW.length + 1
      ∧ ((vol_paths mW tobsW genW).getD 1 []).length = mW.n_path
      ∧ entry (vol_paths mW tobsW genW) 0 0 = mW.sigma ^ 2
      ∧ Real.log (entry (vol_paths mW tobsW genW) 1 0)
          = Real.log (entry (vol_paths mW tobsW genW) (1 - 1) 0)
            + (mW.mr * mW.theta * Real.exp (-Real.log (entry (vol_paths mW tobsW genW) (1 - 1) 0))
                - mW.mr - mW.vov ^ 2 / 2) * mW.dt
            + mW.vov * Real.sqrt mW.dt * genW (arange1 tobsW.length) (1 - 1) 0) :=
  ⟨by simp [tobsW], by norm_num [mW], by simp [tobsW], by norm_num [mW],
   claim_C2 mW tobsW genW 1 0 (by simp [tobsW]) (by norm_num [mW]) le_rfl
     (by simp [tobsW]) (by norm_num [mW])⟩

/-- C3: every entry of the matrix returned by vol_paths is strictly
positive, being an elementwise exponential of the log-variance matrix. -/
theorem claim_C3 (m : Model) (tobs : List ℝ) (gen : List ℝ → ℕ → ℕ → ℝ)
    (i j : ℕ) (hσ : 0 < m.sigma) (hne : tobs ≠ [])
    (hi : i < (vol_paths m tobs gen).length)
    (hj : j < ((vol_paths m tobs gen).getD i []).length) :
    0 < entry (vol_paths m tobs gen) i j := by
  rw [vol_paths_length] at hi
  rw [vol_paths_row_length m tobs gen hi] at hj
  rw [entry_vol_paths m tobs gen (by omega) hj, var_path]
  exact Real.exp_pos _

/-- C3 witness at the concrete instance mW, tobsW, genW, entry (0,0). -/
theorem claim_C3_w :
    0 < mW.sigma ∧ tobsW ≠ []
    ∧ 0 < (vol_paths mW tobsW genW).length
    ∧ 0 < ((vol_paths mW tobsW genW).getD 0 []).length
    ∧ 0 < entry (vol_paths mW tobsW genW) 0 0 :=
  ⟨by norm_num [mW], by simp [tobsW],
   by rw [vol_paths_length]; omega,
   by rw [vol_paths_row_length mW tobsW genW (by omega)]; norm_num [mW],
   claim_C3 mW tobsW genW 0 0 (by norm_num [mW]) (by simp [tobsW])
     (by rw [vol_paths_length]; omega)
     (by rw [vol_paths_row_length mW tobsW genW (by omega)]; norm_num [mW])⟩

/-- C7: the output of vol_paths depends on the observation grid only through
its length: two grids of equal length give identical variance matrices under
the same increment generator. -/
theorem claim_C7 (m : Model) (tobs tobs' : List ℝ) (gen : List ℝ → ℕ → ℕ → ℝ)
    (hlen : tobs.length = tobs'.length) :
    vol_paths m tobs gen = vol_paths m tobs' gen := by
  simp only [vol_paths, hlen]

/-- C7 witness: the grids [1] and [2] have equal length and give the same
variance matrix. -/
theorem claim_C7_w :
    tobsW.length = tobsW2.length
    ∧ vol_paths mW tobsW genW = vol_paths mW tobsW2 genW :=
  ⟨by simp [tobsW, tobsW2], claim_C7 mW tobsW tobsW2 genW (by simp [tobsW, tobsW2])⟩

/-- C8: vol_paths is deterministic given its random draws: equal grid lengths
and equal drawn increment matrices give identical variance matrices. -/
theorem claim_C8 (m : Model) (tobs tobs' : List ℝ) (gen gen' : List ℝ → ℕ → ℕ → ℝ)
    (hlen : tobs.length = tobs'.length)
    (hgen : gen (arange1 tobs.length) = gen' (arange1 tobs'.length)) :
    vol_paths m tobs gen = vol_paths m tobs' gen' := by
  simp only [hlen] at hgen
  have h2 : ∀ j, path_Z gen tobs'.length j = path_Z gen' tobs'.length j := by
    intro j
    funext k
    show gen (arange1 tobs'.length) k j = gen' (arange1 tobs'.length) k j
    rw [hgen]
  simp only [vol_paths, hlen, h2]

/-- C8 witness: two calls on the equal-length grids [1] and [2] with the same
increment matrix coincide. -/
theorem claim_C8_w :
    tobsW.length = tobsW2.length
    ∧ genW (arange1 tobsW.length) = genW (arange1 tobsW2.length)
    ∧ vol_paths mW tobsW genW = vol_paths mW tobsW2 genW :=
  ⟨by simp [tobsW, tobsW2], rfl,
   claim_C8 mW tobsW tobsW2 genW genW (by simp [tobsW, tobsW2]) rfl⟩

/-- C9: a grid of length 1 yields, without error, a variance matrix with
exactly 2 rows, each of width n_path. -/
theorem claim_C9 (m : Model) (tobs : List ℝ) (gen : List ℝ → ℕ → ℕ → ℝ)
    (i : ℕ) (h : tobs.length = 1) (hi : i < 2) :
    (vol_paths m tobs gen).length = 2
    ∧ ((vol_paths m tobs gen).getD i []).length = m.n_path :=
  ⟨by rw [vol_paths_length, h], vol_paths_row_length m tobs gen (by omega)⟩

/-- C9 witness at the concrete one-step grid tobsW. -/
theorem claim_C9_w :
    tobsW.length = 1 ∧ (0 : ℕ) < 2
    ∧ ((vol_paths mW tobsW genW).length = 2
      ∧ ((vol_paths mW tobsW genW).getD 0 []).length = mW.n_path) :=
  ⟨by simp [tobsW], by norm_num,
   claim_C9 mW tobsW genW 0 (by simp [tobsW]) (by norm_num)⟩

/-- C1: cond_spot_sigma computes the per-path forward multiplier exactly as
fwd_cond = exp(rho * (2*(sigma_final - sigma)/vov - mr*theta*int_sigma_inv/vov
+ (mr/vov + vov/4)*int_sigma - rho*int_var/2)), where sigma_final is the last
row of sqrt(var_paths) and int_sigma, int_var, int_sigma_inv are the three
path integrals. -/
theorem claim_C1 (m : Model) (tobs_fn : ℝ → List ℝ) (gen : List ℝ → ℕ → ℕ → ℝ)
    (texp : ℝ) (j : ℕ) (hne : tobs_fn texp ≠ []) (hvov : m.vov ≠ 0)
    (hj : j < m.n_path) :
    (cond_spot_sigma m tobs_fn gen texp).1.getD j 0
      = Real.exp (m.rho *
          (2 * (Real.sqrt (entry (vol_paths m (tobs_fn texp) gen) (tobs_fn texp).length j)
                  - m.sigma) / m.vov
            - m.mr * m.theta
                * int_sigma_inv m (path_Z gen (tobs_fn texp).length j) texp (tobs_fn texp).length
                / m.vov
            + (m.mr / m.vov + m.vov / 4)
                * int_sigma m (path_Z gen (tobs_fn texp).length j) texp (tobs_fn texp).length
            - m.rho
                * int_var m (path_Z gen (tobs_fn texp).length j) texp (tobs_fn texp).length
                / 2)) := by
  rw [cond_fst_getD m tobs_fn gen texp hj, fwd_cond_path, sigma_path,
    entry_vol_paths m (tobs_fn texp) gen le_rfl hj]

/-- C1 witness at the concrete instance mW, fnW, genW, texp = 1, j = 0. -/
theorem claim_C1_w :
    fnW (1 : ℝ) ≠ [] ∧ mW.vov ≠ 0 ∧ 0 < mW.n_path
    ∧ (cond_spot_sigma mW fnW genW 1).1.getD 0 0
        = Real.exp (mW.rho *
            (2 * (Real.sqrt (entry (vol_paths mW (fnW (1 : ℝ)) genW) (fnW (1 : ℝ)).length 0)
                    - mW.sigma) / mW.vov
              - mW.mr * mW.theta
                  * int_sigma_inv mW (path_Z genW (fnW (1 : ℝ)).length 0) 1 (fnW (1 : ℝ)).length
                  / mW.vov
              + (mW.mr / mW.vov + mW.vov / 4)
                  * int_sigma mW (path_Z genW (fnW (1 : ℝ)).length 0) 1 (fnW (1 : ℝ)).length
              - mW.rho
                  * int_var mW (path_Z genW (fnW (1 : ℝ)).length 0) 1 (fnW (1 : ℝ)).length
                  / 2)) :=
  ⟨by simp [fnW, tobsW], by norm_num [mW], by norm_num [mW],
   claim_C1 mW fnW genW 1 0 (by simp [fnW, tobsW]) (by norm_num [mW]) (by norm_num [mW])⟩

/-- C4: sigma_cond is an array of length n_path equal per path to
sqrt(1 - rho^2) * sqrt(int_var), it is non-negative, and at rho = 0 it equals
sqrt(int_var) exactly. -/
theorem claim_C4 (m : Model) (tobs_fn : ℝ → List ℝ) (gen : List ℝ → ℕ → ℕ → ℝ)
    (texp : ℝ) (j : ℕ) (hρ : |m.rho| ≤ 1) (hne : tobs_fn texp ≠ [])
    (hj : j < m.n_path) :
    (cond_spot_sigma m tobs_fn gen texp).2.length = m.n_path
    ∧ (cond_spot_sigma m tobs_fn gen texp).2.getD j 0
        = Real.sqrt (1 - m.rho ^ 2)
          * Real.sqrt (int_var m (path_Z gen (tobs_fn texp).length j) texp (tobs_fn texp).length)
    ∧ 0 ≤ (cond_spot_sigma m tobs_fn gen texp).2.getD j 0
    ∧ (m.rho = 0 →
        (cond_spot_sigma m tobs_fn gen texp).2.getD j 0
          = Real.sqrt (int_var m (path_Z gen (tobs_fn texp).length j) texp (tobs_fn texp).length)) := by
  have h2 := cond_snd_getD m tobs_fn gen texp hj
  refine ⟨cond_snd_length m tobs_fn gen texp, ?_, ?_, ?_⟩
  · rw [h2, sigma_cond_path]
  · rw [h2, sigma_cond_path]
    exact mul_nonneg (Real.sqrt_nonneg _) (Real.sqrt_nonneg _)
  · intro h0
    rw [h2, sigma_cond_path, h0]
    norm_num [Real.sqrt_one]

/-- C4 witness at the concrete instance mW (where rho = 0), fnW, genW,
texp = 1, j = 0. -/
theorem claim_C4_w :
    |mW.rho| ≤ 1 ∧ fnW (1 : ℝ) ≠ [] ∧ 0 < mW.n_path
    ∧ (cond_spot_sigma mW fnW genW 1).2.length = mW.n_path
    ∧ (cond_spot_sigma mW fnW genW 1).2.getD 0 0
        = Real.sqrt (1 - mW.rho ^ 2)
          * Real.sqrt (int_var mW (path_Z genW (fnW (1 : ℝ)).length 0) 1 (fnW (1 : ℝ)).length)
    ∧ 0 ≤ (cond_spot_sigma mW fnW genW 1).2.getD 0 0
    ∧ (cond_spot_sigma mW fnW genW 1).2.getD 0 0
        = Real.sqrt (int_var mW (path_Z genW (fnW (1 : ℝ)).length 0) 1 (fnW (1 : ℝ)).length) :=
  ⟨by norm_num [mW], by simp [fnW, tobsW], by norm_num [mW],
   (claim_C4 mW fnW genW 1 0 (by norm_num [mW]) (by simp [fnW, tobsW]) (by norm_num [mW])).1,
   (claim_C4 mW fnW genW 1 0 (by norm_num [mW]) (by simp [fnW, tobsW]) (by norm_num [mW])).2.1,
   (claim_C4 mW fnW genW 1 0 (by norm_num [mW]) (by simp [fnW, tobsW]) (by norm_num [mW])).2.2.1,
   (claim_C4 mW fnW genW 1 0 (by norm_num [mW]) (by simp [fnW, tobsW]) (by norm_num [mW])).2.2.2 rfl⟩

/-- C5: when rho = 0 and the other parameters are valid, the fwd_cond array
returned by cond_spot_sigma is identically 1 on every path. -/
theorem claim_C5 (m : Model) (tobs_fn : ℝ → List ℝ) (gen : List ℝ → ℕ → ℕ → ℝ)
    (texp : ℝ) (j : ℕ) (hρ : m.rho = 0) (hvov : m.vov ≠ 0) (hσ : 0 < m.sigma)
    (hj : j < m.n_path) :
    (cond_spot_sigma m tobs_fn gen texp).1.getD j 0 = 1 := by
  rw [cond_fst_getD m tobs_fn gen texp hj, fwd_cond_path, hρ]
  simp

/-- C5 witness at the concrete instance mW (where rho = 0). -/
theorem claim_C5_w :
    mW.rho = 0 ∧ mW.vov ≠ 0 ∧ 0 < mW.sigma ∧ 0 < mW.n_path
    ∧ (cond_spot_sigma mW fnW genW 1).1.getD 0 0 = 1 :=
  ⟨rfl, by norm_num [mW], by norm_num [mW], by norm_num [mW],
   claim_C5 mW fnW genW 1 0 rfl (by norm_num [mW]) (by norm_num [mW]) (by norm_num [mW])⟩

/-- C6: each of the three path integrals is the composite Simpson rule over
the row index of the (n_dt+1)-row path matrix with unit spacing, multiplied
by texp/n_dt; this single uniform rescaling ignores the actual spacing of
the grid, so two grids of equal length give identical conditional outputs. -/
theorem claim_C6 (m : Model) (tobs_fn tobs_fn' : ℝ → List ℝ)
    (gen : List ℝ → ℕ → ℕ → ℝ) (texp : ℝ) (j : ℕ)
    (hlen : (tobs_fn texp).length = (tobs_fn' texp).length)
    (hj : j < m.n_path) :
    cond_spot_sigma m tobs_fn gen texp = cond_spot_sigma m tobs_fn' gen texp
    ∧ int_sigma m (path_Z gen (tobs_fn texp).length j) texp (tobs_fn texp).length
        = simps (fun i => Real.sqrt (entry (vol_paths m (tobs_fn texp) gen) i j))
            ((tobs_fn texp).length + 1) * texp / (tobs_fn texp).length
    ∧ int_var m (path_Z gen (tobs_fn texp).length j) texp (tobs_fn texp).length
        = simps (fun i => entry (vol_paths m (tobs_fn texp) gen) i j)
            ((tobs_fn texp).length + 1) * texp / (tobs_fn texp).length
    ∧ int_sigma_inv m (path_Z gen (tobs_fn texp).length j) texp (tobs_fn texp).length
        = simps (fun i => 1 / Real.sqrt (entry (vol_paths m (tobs_fn texp) gen) i j))
            ((tobs_fn texp).length + 1) * texp / (tobs_fn texp).length := by
  have hvar : ∀ i < (tobs_fn texp).length + 1,
      var_path m (path_Z gen (tobs_fn texp).length j) i
        = entry (vol_paths m (tobs_fn texp) gen) i j := fun i hi =>
    (entry_vol_paths m (tobs_fn texp) gen (by omega) hj).symm
  refine ⟨?_, ?_, ?_, ?_⟩
  · simp only [cond_spot_sigma, hlen]
  · rw [int_sigma, simps_congr _ (fun i => Real.sqrt (entry (vol_paths m (tobs_fn texp) gen) i j))
      ((tobs_fn texp).length + 1) (by omega)
      (fun i hi => by rw [sigma_path, hvar i hi])]
  · rw [int_var, simps_congr _ (fun i => entry (vol_paths m (tobs_fn texp) gen) i j)
      ((tobs_fn texp).length + 1) (by omega) (fun i hi => hvar i hi)]
  · rw [int_sigma_inv, simps_congr _
      (fun i => 1 / Real.sqrt (entry (vol_paths m (tobs_fn texp) gen) i j))
      ((tobs_fn texp).length + 1) (by omega)
      (fun i hi => by rw [sigma_path, hvar i hi])]

/-- C6 witness at the concrete instance mW with the equal-length grid
helpers fnW and fnW2, genW, texp = 1, j = 0. -/
theorem claim_C6_w :
    (fnW (1 : ℝ)).length = (fnW2 (1 : ℝ)).length ∧ 0 < mW.n_path
    ∧ (cond_spot_sigma mW fnW genW 1 = cond_spot_sigma mW fnW2 genW 1
      ∧ int_sigma mW (path_Z genW (fnW (1 : ℝ)).length 0) 1 (fnW (1 : ℝ)).length
          = simps (fun i => Real.sqrt (entry (vol_paths mW (fnW (1 : ℝ)) genW) i 0))
              ((fnW (1 : ℝ)).length + 1) * 1 / (fnW (1 : ℝ)).length
      ∧ int_var mW (path_Z genW (fnW (1 : ℝ)).length 0) 1 (fnW (1 : ℝ)).length
          = simps (fun i => entry (vol_paths mW (fnW (1 : ℝ)) genW) i 0)
              ((fnW (1 : ℝ)).length + 1) * 1 / (fnW (1 : ℝ)).length
      ∧ int_sigma_inv mW (path_Z genW (fnW (1 : ℝ)).length 0) 1 (fnW (1 : ℝ)).length
          = simps (fun i => 1 / Real.sqrt (entry (vol_paths mW (fnW (1 : ℝ)) genW) i 0))
              ((fnW (1 : ℝ)).length + 1) * 1 / (fnW (1 : ℝ)).length) :=
  ⟨by simp [fnW, fnW2, tobsW, tobsW2], by norm_num [mW],
   claim_C6 mW fnW fnW2 genW 1 0 (by simp [fnW, fnW2, tobsW, tobsW2]) (by norm_num [mW])⟩

end Garch
